import Mathlib

/-!
Verification development for the cs-restaurant corpus conversion tool
(`cs-restaurant/input/convert.py`).

Strings are modelled as lists of characters (`Str`).  Python `None` values
become `Option`, Python functions that can raise become `Option`-returning
functions.  All definitions are translated directly from the Python source;
definitions whose name ends in `Spec` are instead written from the wording
of the specification, to be compared with the source-derived ones.
-/

/-- Characters are written via their code points where a literal would be
awkward: a single-quote character (code 39). -/
def squote : Char := Char.ofNat 39

/-- The double-quote character (code 34). -/
def dquote : Char := Char.ofNat 34

/-- Python strings, modelled as lists of characters. -/
abbrev Str := List Char

/-- A single dialogue act item (`DAI` recordclass in the source):
an act type, an optional slot, an optional value. -/
structure DAI where
  type : Str
  slot : Option Str
  value : Option Str
deriving DecidableEq

/-- A dialogue act is a list of dialogue act items (`DA.dais`). -/
abbrev DA := List DAI

/-- Serialization of a single item, from `DAI.__unicode__`:
`type()` when there is no slot, `type(slot)` when there is no value,
otherwise `type(slot=value)` with the value wrapped in single quotes
exactly when it contains a space or a colon. -/
def DAI.unicode (d : DAI) : Str :=
  match d.slot with
  | none => d.type ++ "()".toList
  | some slot =>
    match d.value with
    | none => d.type ++ "(".toList ++ slot ++ ")".toList
    | some value =>
      let quote : Str := if (' ' ∈ value ∨ ':' ∈ value) then [squote] else []
      d.type ++ "(".toList ++ slot ++ "=".toList ++ quote ++ value ++ quote ++ ")".toList

/-- Serialization of a DA, from `DA.__unicode__`: items joined by `&`. -/
def DA.unicode (da : DA) : Str :=
  List.intercalate "&".toList (da.map DAI.unicode)

/-- Python `s.split(sep, 1)` for a one-character separator, when the
separator occurs; `none` models the `ValueError` of unpacking a
one-element result. -/
def splitFirstOn (sep : Char) : Str → Option (Str × Str)
  | [] => none
  | c :: rest =>
    if c = sep then some ([], rest)
    else (splitFirstOn sep rest).map (fun p => (c :: p.1, p.2))

/-- Prepends a character to the first chunk of a split result (the
accumulation step of left-to-right splitting). -/
def consHead (c : Char) : List Str → List Str
  | [] => [[c]]
  | h :: t => (c :: h) :: t

/-- Python `s.split(")&")`: left-to-right, non-overlapping splitting on the
two-character separator, keeping empty chunks. -/
def splitParenAmp : Str → List Str
  | [] => [[]]
  | [c] => [[c]]
  | c :: d :: rest =>
    if c = ')' ∧ d = '&' then
      [] :: splitParenAmp rest
    else
      consHead c (splitParenAmp (d :: rest))

/-- Parsing of one item chunk, from the loop body of `DA.parse`:
split on the first `(` into type and bracket body `svp`; empty body gives a
slot-less item, a body without `=` gives a value-less item, otherwise split
on the first `=` and strip a leading double quote together with the last
character of the value. -/
def parseDAI (s : Str) : Option DAI :=
  match splitFirstOn '(' s with
  | none => none
  | some (da_type, svp) =>
    if svp = [] then some ⟨da_type, none, none⟩
    else if '=' ∉ svp then some ⟨da_type, some svp, none⟩
    else
      match splitFirstOn '=' svp with
      | none => none
      | some (slot, value) =>
        let value := if value.head? = some dquote then (value.drop 1).dropLast else value
        some ⟨da_type, some slot, some value⟩

/-- `DA.parse`: drop the final bracket, split on `)&`, parse every chunk.
`none` models the exception raised on a chunk without `(`. -/
def DA.parse (da_text : Str) : Option DA :=
  (splitParenAmp da_text.dropLast).mapM parseDAI

/-- The two coordination regular expressions of `DA.has_value`
(`.* (and|or) value$` and `^value (and|or) `), for values free of regex
metacharacters and newline-free strings: the item value ends with
`" and " + value` or `" or " + value`, or starts with `value + " and "`
or `value + " or "`. -/
def coordMatch (value dv : Str) : Bool :=
  (" and ".toList ++ value).isSuffixOf dv ||
  (" or ".toList ++ value).isSuffixOf dv ||
  (value ++ " and ".toList).isPrefixOf dv ||
  (value ++ " or ".toList).isPrefixOf dv

/-- The second guard of the loop of `DA.has_value`: the item value is set,
the query value is set and is not the literal `?`, and one of the two
coordination patterns matches. -/
def DAI.coordCond (dai : DAI) (value : Option Str) : Bool :=
  match dai.value, value with
  | some dv, some v => (!(v == "?".toList)) && coordMatch v dv
  | _, _ => false

/-- `DA.has_value`: scan the items in order; for each item return its slot
if the item value equals the query exactly, or if the coordination guard
holds; otherwise continue; return `none` after the last item. -/
def DA.has_value : DA → Option Str → Option Str
  | [], _ => none
  | dai :: rest, value =>
    if dai.value = value then dai.slot
    else if dai.coordCond value then dai.slot
    else DA.has_value rest value

/-! ## Surface-form dictionary (`MorphoAnalyzer`) -/

/-- The regex `^[0-9]+$` of the source: a nonempty all-digit token. -/
def isDigitTok (s : Str) : Bool := !s.isEmpty && s.all Char.isDigit

/-- Python `str.lower`, restricted to the ASCII lowercasing that
`Char.toLower` performs. -/
def strLower (s : Str) : Str := s.map Char.toLower

/-- The mutable state of the analyzer that the claims depend on:
the surface-form dictionary (`_sf_dict`, a Python dict modelled as an
insertion-ordered association list) and the maximal key length
(`_sf_max_len`). -/
structure SFState where
  sf_dict : List (List Str × List (Str × Str))
  sf_max_len : Nat
deriving DecidableEq

/-- Dictionary lookup (`test_substr in self._sf_dict` and
`self._sf_dict[test_substr]`). -/
def SFState.lookup (st : SFState) (key : List Str) : Option (List (Str × Str)) :=
  (st.sf_dict.find? (fun p => p.1 = key)).map Prod.snd

/-- The dict update of `load_surface_forms`: create an empty list for a new
key, then append the entry to the list under the key. -/
def dictAppend (d : List (List Str × List (Str × Str))) (key : List Str)
    (entry : Str × Str) : List (List Str × List (Str × Str)) :=
  match d with
  | [] => [(key, [entry])]
  | (k, vs) :: rest =>
    if k = key then (k, vs ++ [entry]) :: rest
    else (k, vs) :: dictAppend rest key entry

/-- One iteration of the innermost loop of `load_surface_forms`: lowercase
and space-split the surface form, and for the reserved slot `street` append
a `_` placeholder token to the phrase and ` _` to the canonical lemma;
update the maximal length and the dictionary. -/
def SFState.loadForm (st : SFState) (slot value form tag : Str) : SFState :=
  let form_toks := List.splitOn ' ' (strLower form)
  let lm := value
  let p : Str × List Str :=
    if slot = "street".toList then (lm ++ " _".toList, form_toks ++ ["_".toList])
    else (lm, form_toks)
  { sf_dict := dictAppend st.sf_dict p.2 (p.1, tag),
    sf_max_len := Nat.max st.sf_max_len p.2.length }

/-- Python `re.sub(r'_', num, lm, count=1)`: replace the first underscore
(if any) by `num`. -/
def subFirstUnderscore (num : Str) : Str → Str
  | [] => []
  | c :: rest => if c = '_' then num ++ rest else c :: subFirstUnderscore num rest

/-- The placeholder-substitution loop of `_get_surface_form_taggedlemmas`:
each numeric token of the window, in encounter order, replaces the first
remaining underscore of the candidate lemma. -/
def substNums (nums : List Str) (lm : Str) : Str :=
  nums.foldl (fun l n => subFirstUnderscore n l) lm

/-- Window normalization of `_get_surface_form_taggedlemmas`: an all-digit
token becomes the `_` placeholder, every other token is lowercased. -/
def normTok (s : Str) : Str := if isDigitTok s then "_".toList else strLower s

/-- The descending window-length loop of `_get_surface_form_taggedlemmas`,
called with the current length bound: test the window of length `k`, on a
dictionary hit build the candidates, substitute numeric tokens for
placeholders, consume `k` tokens and return the joined original-case window
text; otherwise try the next shorter window. -/
def SFState.tryLen (st : SFState) (forms_in : List Str) :
    Nat → Option (Str × List (Str × Str)) × List Str
  | 0 => (none, forms_in)
  | Nat.succ k =>
    let full_substr := forms_in.take (k + 1)
    let test_substr := full_substr.map normTok
    match st.lookup test_substr with
    | some entries =>
      let nums := full_substr.filter isDigitTok
      let tls := entries.map (fun e => (substNums nums e.1, e.2))
      (some (List.intercalate " ".toList full_substr, tls), forms_in.drop (k + 1))
    | none => st.tryLen forms_in k

/-- `_get_surface_form_taggedlemmas`: the queue is returned explicitly in
place of the in-place `popleft` mutation; `(none, unchanged queue)` models
the `(None, None)` result. -/
def SFState.getSurfaceForm (st : SFState) (forms_in : List Str) :
    Option (Str × List (Str × Str)) × List Str :=
  st.tryLen forms_in (Nat.min st.sf_max_len forms_in.length)

/-- Specification-side matcher, written from the words of the spec:
try window lengths from `min(maxLen, len(tokens))` down to 1, select the
first (hence longest) normalized window present in the dictionary, consume
that many tokens and return the joined window text with the
placeholder-substituted candidates; on no match consume nothing. -/
def matchLongestSpec (st : SFState) (forms_in : List Str) :
    Option (Str × List (Str × Str)) × List Str :=
  let lens := (List.range (Nat.min st.sf_max_len forms_in.length)).reverse.map (· + 1)
  match lens.find? (fun k => (st.lookup ((forms_in.take k).map normTok)).isSome) with
  | none => (none, forms_in)
  | some k =>
    let full := forms_in.take k
    match st.lookup (full.map normTok) with
    | none => (none, forms_in)
    | some entries =>
      let nums := full.filter isDigitTok
      (some (List.intercalate " ".toList full, entries.map (fun e => (substNums nums e.1, e.2))),
       forms_in.drop k)

/-! ## Delexicalization -/

/-- An analyzed token: surface form, lemma (field `lem`), tag. -/
structure Tok where
  form : Str
  lem : Str
  tag : Str
deriving DecidableEq

/-- The placeholder `X-slot`. -/
def xSlot (s : Str) : Str := "X-".toList ++ s

/-- Delexicalization of one item, from the loop body of `_delex_das`:
the value becomes `X-slot` exactly when the old value is truthy (set and
nonempty) and the slot is in the abstractable set; type and slot are kept. -/
def DAI.delex (abst : List Str) (dai : DAI) : DAI :=
  ⟨dai.type, dai.slot,
    match dai.slot, dai.value with
    | some s, some v => if v ≠ [] ∧ s ∈ abst then some (xSlot s) else some v
    | _, _ => dai.value⟩

/-- `_delex_das` on one DA. -/
def delexDA (abst : List Str) (da : DA) : DA := da.map (DAI.delex abst)

/-- `_delex_das` over the whole subrange of the buffer. -/
def delexDAs (abst : List Str) (das : List DA) : List DA := das.map (delexDA abst)

/-- The token loop of `_delex_texts`: a token is replaced by the
`X-slot` placeholder (surface form and lemma; tag kept) when `has_value` on
its lemma returns a truthy slot belonging to the abstractable set, and that
slot is recorded as covered.  The covered set is modelled as a list used
only through membership. -/
def delexTextSent (abst : List Str) (da : DA) : List Tok → List Tok × List Str
  | [] => ([], [])
  | t :: rest =>
    let step : Tok × Option Str :=
      match DA.has_value da (some t.lem) with
      | some s =>
        if s ≠ [] ∧ s ∈ abst then (⟨xSlot s, xSlot s, t.tag⟩, some s) else (t, none)
      | none => (t, none)
    let tail := delexTextSent abst da rest
    (step.1 :: tail.1,
     match step.2 with
     | some s => s :: tail.2
     | none => tail.2)

/-- The warning condition of `_delex_texts`: the item slot is in the
abstractable set, the value is none of Python `None`, `none`, `dont_care`,
and the slot is not in the covered set. -/
def warnCond (abst covered : List Str) (dai : DAI) : Bool :=
  match dai.slot with
  | some s =>
    decide (s ∈ abst) && decide (dai.value ≠ none) &&
    decide (dai.value ≠ some "none".toList) &&
    decide (dai.value ≠ some "dont_care".toList) &&
    !(decide (s ∈ covered))
  | none => false

/-- One iteration of `_delex_texts`: the delexicalized token sequence of a
sentence together with the list of items warned about. -/
def delexTextFull (abst : List Str) (da : DA) (text : List Tok) :
    List Tok × List DAI :=
  let r := delexTextSent abst da text
  (r.1, da.filter (warnCond abst r.2))

/-- `_delex_texts` over a subrange: every (sentence, DA) pair of the
subrange produces exactly one output entry, warnings notwithstanding. -/
def delexTexts (abst : List Str) (pairs : List (List Tok × DA)) :
    List (List Tok × List DAI) :=
  pairs.map (fun p => delexTextFull abst p.2 p.1)

/-! ## Partition sizing (`convert`) -/

/-- The split-sizing step of `convert`, with exact rational arithmetic in
place of Python floats: every part but the first is
`int(round(buf_length * (weight / total)))`, computed here with Mathlib
`round` (which agrees with the Python 2 half-away-from-zero rounding on the
nonnegative values arising); the first part receives whatever remains.
The source loop runs from the last part down to part 1; the computed values
do not depend on that order. -/
def partitionSizes (buf_length : Nat) (weights : List Nat) : List Int :=
  match weights with
  | [] => []
  | w0 :: rest =>
    let total : ℚ := (((w0 :: rest).map (Nat.cast : Nat → ℚ)).sum)
    let tailSizes := rest.map (fun w => round ((buf_length : ℚ) * ((w : ℚ) / total)))
    ((buf_length : Int) - tailSizes.sum) :: tailSizes

/-! ## Theorems -/

/-- C5: loading the surface form `main st` with canonical value `Main St`
under the reserved slot `street` appends the numeric placeholder to the
phrase tokens and to the canonical lemma. -/
def stC5 : SFState :=
  SFState.loadForm ⟨[], 0⟩ "street".toList "Main St".toList "main st".toList "N3".toList

/-- A concrete DA used to instantiate the C6 and C10 statements. -/
def exC6 : DA :=
  [⟨"inform".toList, some "food".toList, some "italian".toList⟩,
   ⟨"inform".toList, some "area".toList, some "north".toList⟩,
   ⟨"hello".toList, none, none⟩]

/-- A concrete analyzed sentence used to instantiate the C10 statement. -/
def exC10text : List Tok :=
  [⟨"Italian".toList, "italian".toList, "AA".toList⟩,
   ⟨"food".toList, "food".toList, "NN".toList⟩]

/-- Coordination membership as the specification words it: the item value
is a two-sided coordination whose whole suffix member, or whole prefix
member, is the query value. -/
def isCoordWith (v dv : Str) : Prop :=
  (∃ x, dv = x ++ " and ".toList ++ v) ∨ (∃ x, dv = x ++ " or ".toList ++ v) ∨
  (∃ y, dv = v ++ (" and ".toList ++ y)) ∨ (∃ y, dv = v ++ (" or ".toList ++ y))

/-- A concrete DA used to instantiate the C8 statement. -/
def exC8 : DA := [⟨"inform".toList, some "food".toList, some "italian".toList⟩]

/-- Specification-side form of the amended C3: the first item, in order,
that matches exactly or satisfies the coordination guard supplies the
returned slot. -/
def hasValueSpec (da : DA) (value : Option Str) : Option Str :=
  match da.find? (fun dai => decide (dai.value = value) || dai.coordCond value) with
  | some dai => dai.slot
  | none => none

/-- The DA refuting C3 as stated: the first item value is the coordination
`a and b`, the second item value is exactly `b`. -/
def exC3 : DA :=
  [⟨"inform".toList, some "s1".toList, some "a and b".toList⟩,
   ⟨"confirm".toList, some "s2".toList, some "b".toList⟩]

/-- Inputs instantiating the C7 statement: the DA requests an abstractable
slot `area` whose value `north` never occurs in the text, so a warning is
due for it. -/
def exC7da : DA := [⟨"inform".toList, some "area".toList, some "north".toList⟩]

/-- The text for the C7 witness: no token lemma matches `north`. -/
def exC7text : List Tok := [⟨"hi".toList, "hi".toList, "UH".toList⟩]

/-- Inputs for the C1 counterexample: the single item has the abstractable
slot `s` and the set value `""`, which is neither `none` nor `dont_care`;
the single token has the empty lemma, so `has_value` matches it exactly and
the slot is covered. -/
def exC1da : DA := [⟨"inform".toList, some "s".toList, some []⟩]

/-- The text for the C1 counterexample. -/
def exC1text : List Tok := [⟨"f".toList, [], "T".toList⟩]

/-- Inputs for the C1 witness: `food=italian` with `food` abstractable and
a token whose lemma is `italian`. -/
def exC1wda : DA := [⟨"inform".toList, some "food".toList, some "italian".toList⟩]

/-- The text for the C1 witness. -/
def exC1wtext : List Tok := [⟨"Italian".toList, "italian".toList, "AA".toList⟩]

/-- The dictionary-hit result of the matcher for window length `k`. -/
def specHit (st : SFState) (forms_in : List Str) (k : Nat) :
    Option (Str × List (Str × Str)) × List Str :=
  match st.lookup ((forms_in.take k).map normTok) with
  | none => (none, forms_in)
  | some entries =>
    (some (List.intercalate " ".toList (forms_in.take k),
           entries.map (fun e =>
             (substNums ((forms_in.take k).filter isDigitTok) e.1, e.2))),
     forms_in.drop k)

/-- The dictionary for the C4 witness: a one-token entry `pizza` and a
two-token entry `pizza place` under the same slot. -/
def stC4 : SFState :=
  SFState.loadForm
    (SFState.loadForm ⟨[], 0⟩ "name".toList "Pizza".toList "pizza".toList "N1".toList)
    "name".toList "Pizza Place".toList "pizza place".toList "N2".toList

/-- The serialization of an item without its closing bracket (every
serialized item ends in the closing bracket; this is the remainder). -/
def DAI.serInner (d : DAI) : Str :=
  match d.slot with
  | none => d.type ++ ['(']
  | some slot =>
    match d.value with
    | none => d.type ++ ['('] ++ slot
    | some value =>
      let quote : Str := if (' ' ∈ value ∨ ':' ∈ value) then [squote] else []
      d.type ++ ['('] ++ slot ++ ['='] ++ quote ++ value ++ quote

/-- Round-trip safety of an item: the type holds no bracket characters; a
present slot is nonempty and holds no closing bracket and no equals sign; a
present value holds no closing bracket, no double quote, and — the
restriction forced by the quoting mismatch of the source — no space and no
colon; an item without a slot has no value. -/
def DAI.wfb (d : DAI) : Bool :=
  decide (')' ∉ d.type) && decide ('(' ∉ d.type) &&
  (match d.slot with
   | none => d.value == none
   | some s => decide (s ≠ []) && decide (')' ∉ s) && decide ('=' ∉ s)) &&
  (match d.value with
   | none => true
   | some v =>
     decide (')' ∉ v) && decide (dquote ∉ v) && decide (' ' ∉ v) && decide (':' ∉ v))

/-- A concrete DA used to instantiate the round-trip statement. -/
def exC2w : DA :=
  [⟨"inform".toList, some "food".toList, some "italian".toList⟩,
   ⟨"hello".toList, none, none⟩,
   ⟨"request".toList, some "area".toList, none⟩]

/-- The DA refuting C2 as stated: a single item whose value `a b` contains
a space (and no quote character). -/
def exC2cex : DA := [⟨"inform".toList, some "name".toList, some "a b".toList⟩]

/-! ## Theorems -/

example : DA.parse "inform(food=italian)&hello()&request(area)".toList =
    some [⟨"inform".toList, some "food".toList, some "italian".toList⟩,
          ⟨"hello".toList, none, none⟩,
          ⟨"request".toList, some "area".toList, none⟩] := by decide

example : DA.has_value [⟨"i".toList, some "s".toList, some "a and b".toList⟩]
    (some "b".toList) = some "s".toList := by decide

/-- C5: loading a surface form for the reserved slot `street` appends the
numeric placeholder token to both the phrase tokens and the canonical
lemma, and matching the entry against `Main St 42` consumes all three
tokens and substitutes the number for the placeholder, yielding the
candidate lemma `Main St 42`. -/
theorem street_number_placeholder :
    stC5.sf_dict = [(["main".toList, "st".toList, "_".toList],
                     [("Main St _".toList, "N3".toList)])] ∧
    stC5.sf_max_len = 3 ∧
    stC5.getSurfaceForm ["Main".toList, "St".toList, "42".toList] =
      (some ("Main St 42".toList, [("Main St 42".toList, "N3".toList)]), []) := by
  decide

/-- C9: the partition sizes computed by `convert` always sum exactly to the
number of loaded examples (all rounding remainder lands in the first part),
and 100 examples with weights 3:1:1 give sizes 60, 20, 20. -/
theorem convert_partition_sizes :
    (∀ (n : Nat) (weights : List Nat), weights ≠ [] → (∀ w ∈ weights, 0 < w) →
      (partitionSizes n weights).sum = (n : Int)) ∧
    partitionSizes 100 [3, 1, 1] = [60, 20, 20] := by
  constructor
  · intro n ws hne _
    cases ws with
    | nil => exact absurd rfl hne
    | cons w0 rest => simp [partitionSizes]
  · simp only [partitionSizes, List.map_cons, List.map_nil, List.sum_cons, List.sum_nil]
    norm_num [round_eq]

/-- C9 witness: the sum statement applied to 7 examples and weights 2:1. -/
theorem convert_partition_sizes_witness :
    (partitionSizes 7 [2, 1]).sum = (7 : Int) :=
  convert_partition_sizes.1 7 [2, 1] (by decide) (by decide)

/-- C6: `_delex_das` maps every item to an item with the same type and
slot (hence same count and order); a changed value forces an abstractable
slot and a set source value, and the new value is then the placeholder;
an item without an abstractable slot or without a value passes through
unchanged. -/
theorem delexDA_preserves_shape (abst : List Str) (da : DA) :
    (delexDA abst da).length = da.length ∧
    List.Forall₂ (fun src out =>
      out.type = src.type ∧ out.slot = src.slot ∧
      (out.value ≠ src.value →
        ∃ s, src.slot = some s ∧ s ∈ abst ∧ src.value ≠ none ∧
          out.value = some (xSlot s)) ∧
      (¬ (∃ s, src.slot = some s ∧ s ∈ abst ∧ src.value ≠ none) → out = src))
      da (delexDA abst da) := by
  refine ⟨by simp [delexDA], ?_⟩
  induction da with
  | nil => exact List.Forall₂.nil
  | cons d rest ih =>
    refine List.Forall₂.cons ?_ ih
    rcases d with ⟨ty, slot, value⟩
    cases slot with
    | none =>
      refine ⟨rfl, rfl, ?_, ?_⟩
      · intro hne; exact absurd rfl hne
      · intro _; rfl
    | some s =>
      cases value with
      | none =>
        refine ⟨rfl, rfl, ?_, ?_⟩
        · intro hne; exact absurd rfl hne
        · intro _; rfl
      | some v =>
        by_cases hcond : v ≠ [] ∧ s ∈ abst
        · refine ⟨rfl, rfl, ?_, ?_⟩
          · intro _
            exact ⟨s, rfl, hcond.2, by simp, by simp [DAI.delex, hcond]⟩
          · intro hno
            exact absurd ⟨s, rfl, hcond.2, by simp⟩ hno
        · refine ⟨rfl, rfl, ?_, ?_⟩
          · intro hne
            exact absurd (by simp [DAI.delex, hcond]) hne
          · intro _
            simp [DAI.delex, hcond]

/-- C6 witness: the shape statement instantiated on a concrete DA. -/
theorem delexDA_preserves_shape_witness :
    (delexDA ["food".toList] exC6).length = exC6.length ∧
    List.Forall₂ (fun src out =>
      out.type = src.type ∧ out.slot = src.slot ∧
      (out.value ≠ src.value →
        ∃ s, src.slot = some s ∧ s ∈ ["food".toList] ∧ src.value ≠ none ∧
          out.value = some (xSlot s)) ∧
      (¬ (∃ s, src.slot = some s ∧ s ∈ ["food".toList] ∧ src.value ≠ none) → out = src))
      exC6 (delexDA ["food".toList] exC6) :=
  delexDA_preserves_shape ["food".toList] exC6

/-- Positional correspondence between the input tokens and the output of
the token loop of `_delex_texts`. -/
theorem delexTextSent_correspond (abst : List Str) (da : DA) (text : List Tok) :
    List.Forall₂ (fun tIn tOut =>
      tOut.tag = tIn.tag ∧
      (tOut = tIn ∨ ∃ s, DA.has_value da (some tIn.lem) = some s ∧ s ≠ [] ∧ s ∈ abst ∧
        tOut = ⟨xSlot s, xSlot s, tIn.tag⟩))
      text (delexTextSent abst da text).1 := by
  induction text with
  | nil => exact List.Forall₂.nil
  | cons t rest ih =>
    refine List.Forall₂.cons ?_ ih
    cases h : DA.has_value da (some t.lem) with
    | none => simp [delexTextSent, h]
    | some s =>
      by_cases hc : s ≠ [] ∧ s ∈ abst
      · refine ⟨by simp [delexTextSent, h, hc], Or.inr ⟨s, rfl, hc.1, hc.2, ?_⟩⟩
        simp [delexTextSent, h, hc]
      · simp [delexTextSent, h, hc]

/-- The token loop emits exactly one output token per input token. -/
theorem delexTextSent_length (abst : List Str) (da : DA) (text : List Tok) :
    (delexTextSent abst da text).1.length = text.length :=
  (delexTextSent_correspond abst da text).length_eq.symm

/-- C10: per-token characterization of the delexicalized text: one output
token per input token in order, tags preserved, and every position either
passes through unchanged or is replaced by the placeholder token for a
truthy abstractable slot found for its lemma. -/
theorem delexText_frame (abst : List Str) (da : DA) (text : List Tok) :
    (delexTextFull abst da text).1.length = text.length ∧
    List.Forall₂ (fun tIn tOut =>
      tOut.tag = tIn.tag ∧
      (tOut = tIn ∨ ∃ s, DA.has_value da (some tIn.lem) = some s ∧ s ≠ [] ∧ s ∈ abst ∧
        tOut = ⟨xSlot s, xSlot s, tIn.tag⟩))
      text (delexTextFull abst da text).1 :=
  ⟨delexTextSent_length abst da text, delexTextSent_correspond abst da text⟩

/-- The boolean coordination test of the embedding agrees with the
specification-side membership predicate. -/
theorem coordMatch_iff (v dv : Str) : coordMatch v dv = true ↔ isCoordWith v dv := by
  simp only [coordMatch, isCoordWith, Bool.or_eq_true,
    List.isSuffixOf_iff_suffix, List.isPrefixOf_iff_prefix,
    List.IsSuffix, List.IsPrefix]
  constructor
  · rintro (((⟨t, ht⟩ | ⟨t, ht⟩) | ⟨t, ht⟩) | ⟨t, ht⟩)
    · exact Or.inl ⟨t, by simp [← ht]⟩
    · exact Or.inr (Or.inl ⟨t, by simp [← ht]⟩)
    · exact Or.inr (Or.inr (Or.inl ⟨t, by simp [← ht]⟩))
    · exact Or.inr (Or.inr (Or.inr ⟨t, by simp [← ht]⟩))
  · rintro (⟨t, ht⟩ | ⟨t, ht⟩ | ⟨t, ht⟩ | ⟨t, ht⟩)
    · exact Or.inl (Or.inl (Or.inl ⟨t, by simp [ht]⟩))
    · exact Or.inl (Or.inl (Or.inr ⟨t, by simp [ht]⟩))
    · exact Or.inl (Or.inr ⟨t, by simp [ht]⟩)
    · exact Or.inr ⟨t, by simp [ht]⟩

/-- C8: `has_value` returns nothing when no item value equals the query
and no item value is a coordination containing the query as a whole
member. -/
theorem has_value_none_of_no_match (da : DA) (value : Option Str)
    (h : ∀ dai ∈ da, dai.value ≠ value ∧
      ¬ ∃ v dv, value = some v ∧ dai.value = some dv ∧ isCoordWith v dv) :
    DA.has_value da value = none := by
  induction da with
  | nil => rfl
  | cons dai rest ih =>
    have hd := h dai (List.mem_cons_self _ _)
    have hcoord : dai.coordCond value = false := by
      rcases hv : dai.value with _ | dv
      · simp [DAI.coordCond, hv]
      · rcases hq : value with _ | v
        · simp [DAI.coordCond, hv, hq]
        · simp only [DAI.coordCond, hv, hq, Bool.and_eq_false_iff]
          by_cases hm : coordMatch v dv = true
          · exact absurd ⟨v, dv, rfl, rfl, (coordMatch_iff v dv).mp hm⟩
              (hq ▸ hv ▸ hd.2)
          · exact Or.inr (by simpa using hm)
    rw [DA.has_value, if_neg hd.1, if_neg (by simp [hcoord])]
    exact ih (fun d hm => h d (List.mem_cons_of_mem _ hm))

/-- C8 witness: on a DA whose only item value is `italian`, querying the
value `chinese` yields nothing. -/
theorem has_value_none_of_no_match_witness :
    DA.has_value exC8 (some "chinese".toList) = none := by
  refine has_value_none_of_no_match exC8 (some "chinese".toList) ?_
  intro dai hmem
  have hdai : dai = ⟨"inform".toList, some "food".toList, some "italian".toList⟩ := by
    simpa [exC8] using hmem
  subst hdai
  refine ⟨by decide, ?_⟩
  rintro ⟨v, dv, hv, hdv, hc⟩
  have hv2 : v = "chinese".toList := by injection hv with h2; exact h2.symm
  have hdv2 : dv = "italian".toList := by injection hdv with h2; exact h2.symm
  subst hv2; subst hdv2
  exact absurd ((coordMatch_iff _ _).mpr hc) (by decide)

/-- C3 (amended): `has_value` makes a single pass, testing each item for
an exact value match or, in the same pass, for the guarded coordination
match; the first item satisfying either supplies the slot. -/
theorem has_value_first_match (da : DA) (value : Option Str) :
    DA.has_value da value = hasValueSpec da value := by
  induction da with
  | nil => rfl
  | cons dai rest ih =>
    by_cases he : dai.value = value
    · simp [DA.has_value, hasValueSpec, List.find?_cons, he]
    · by_cases hc : dai.coordCond value = true
      · simp [DA.has_value, hasValueSpec, List.find?_cons, he, hc]
      · simp only [Bool.not_eq_true] at hc
        simp [DA.has_value, hasValueSpec, List.find?_cons, he, hc, ih]

/-- C3 counterexample: for the query `b`, the first exact match is the
second item (slot `s2`), but `has_value` returns `s1`, the slot of an
earlier item matched through the coordination fallback — so the fallback
is not reserved for the case where no exact match exists. -/
theorem has_value_coord_beats_exact :
    exC3.find? (fun dai => decide (dai.value = some "b".toList)) =
      some ⟨"confirm".toList, some "s2".toList, some "b".toList⟩ ∧
    DA.has_value exC3 (some "b".toList) = some "s1".toList ∧
    "s1".toList ≠ "s2".toList := by decide

/-- C10 witness: the frame statement instantiated on a concrete example. -/
theorem delexText_frame_witness :
    (delexTextFull ["food".toList] exC6 exC10text).1.length = exC10text.length ∧
    List.Forall₂ (fun tIn tOut =>
      tOut.tag = tIn.tag ∧
      (tOut = tIn ∨ ∃ s, DA.has_value exC6 (some tIn.lem) = some s ∧ s ≠ [] ∧
        s ∈ ["food".toList] ∧ tOut = ⟨xSlot s, xSlot s, tIn.tag⟩))
      exC10text (delexTextFull ["food".toList] exC6 exC10text).1 :=
  delexText_frame ["food".toList] exC6 exC10text

/-- Membership in the covered-slot set of the token loop: a slot is covered
exactly when some token of the sentence was replaced for it, i.e. when
`has_value` on the token lemma returned that truthy abstractable slot. -/
theorem mem_covered_iff (abst : List Str) (da : DA) (text : List Tok) (s : Str) :
    s ∈ (delexTextSent abst da text).2 ↔
      ∃ t ∈ text, DA.has_value da (some t.lem) = some s ∧ s ≠ [] ∧ s ∈ abst := by
  induction text with
  | nil => simp [delexTextSent]
  | cons t rest ih =>
    rw [List.exists_mem_cons_iff]
    cases hval : DA.has_value da (some t.lem) with
    | none =>
      have hstep : (delexTextSent abst da (t :: rest)).2 =
          (delexTextSent abst da rest).2 := by
        simp [delexTextSent, hval]
      rw [hstep, ih]
      simp
    | some s0 =>
      by_cases hc : s0 ≠ [] ∧ s0 ∈ abst
      · have hstep : (delexTextSent abst da (t :: rest)).2 =
            s0 :: (delexTextSent abst da rest).2 := by
          simp [delexTextSent, hval, hc]
        rw [hstep]
        simp only [List.mem_cons, ih]
        constructor
        · rintro (rfl | hr)
          · exact Or.inl ⟨rfl, hc.1, hc.2⟩
          · exact Or.inr hr
        · rintro (⟨heq, _, _⟩ | hr)
          · exact Or.inl (Option.some.inj heq).symm
          · exact Or.inr hr
      · have hstep : (delexTextSent abst da (t :: rest)).2 =
            (delexTextSent abst da rest).2 := by
          simp [delexTextSent, hval, hc]
        rw [hstep, ih]
        constructor
        · exact Or.inr
        · rintro (⟨heq, hne2, habst2⟩ | hr)
          · have hss : s0 = s := Option.some.inj heq
            exact absurd ⟨hss ▸ hne2, hss ▸ habst2⟩ hc
          · exact hr

/-- A covered slot leaves a placeholder token in the delexicalized output. -/
theorem covered_imp_token (abst : List Str) (da : DA) (text : List Tok) (s : Str)
    (h : ∃ t ∈ text, DA.has_value da (some t.lem) = some s ∧ s ≠ [] ∧ s ∈ abst) :
    ∃ t ∈ (delexTextSent abst da text).1, t.form = xSlot s := by
  induction text with
  | nil => simp at h
  | cons t rest ih =>
    rcases h with ⟨t0, hmem, hv, hne, habst⟩
    rcases List.mem_cons.mp hmem with rfl | hmem2
    · refine ⟨⟨xSlot s, xSlot s, t0.tag⟩, ?_, rfl⟩
      simp [delexTextSent, hv, hne, habst]
    · rcases ih ⟨t0, hmem2, hv, hne, habst⟩ with ⟨tok, hmemo, hform⟩
      refine ⟨tok, ?_, hform⟩
      simp only [delexTextSent]
      exact List.mem_cons_of_mem _ hmemo

/-- Membership in the warning list of `_delex_texts`, characterized through
the token-replacement description of coverage. -/
theorem warn_mem_iff (abst : List Str) (da : DA) (text : List Tok) (dai : DAI) :
    dai ∈ (delexTextFull abst da text).2 ↔
      (dai ∈ da ∧ ∃ s, dai.slot = some s ∧ s ∈ abst ∧
        dai.value ≠ none ∧ dai.value ≠ some "none".toList ∧
        dai.value ≠ some "dont_care".toList ∧
        ¬ ∃ t ∈ text, DA.has_value da (some t.lem) = some s ∧ s ≠ [] ∧ s ∈ abst) := by
  simp only [delexTextFull, List.mem_filter]
  refine and_congr_right (fun _ => ?_)
  rcases hs : dai.slot with _ | s
  · simp [warnCond, hs]
  · simp only [warnCond, hs, Bool.and_eq_true, decide_eq_true_eq,
      Bool.not_eq_true', decide_eq_false_iff_not, Option.some.injEq]
    rw [mem_covered_iff]
    constructor
    · rintro ⟨⟨⟨⟨ha, hv⟩, hn⟩, hdc⟩, hcov⟩
      exact ⟨s, rfl, ha, hv, hn, hdc, hcov⟩
    · rintro ⟨s2, rfl2, ha, hv, hn, hdc, hcov⟩
      cases rfl2
      exact ⟨⟨⟨⟨ha, hv⟩, hn⟩, hdc⟩, hcov⟩

/-- C7: a coverage warning is emitted for an item of the DA exactly when
its slot is abstractable, its value is set and neither `none` nor
`dont_care`, and no token of the sentence was replaced for that slot; the
warning is diagnostic only: the sentence still yields a full-length output
and every pair of the subrange yields an output entry. -/
theorem delex_warning_characterization (abst : List Str) (da : DA) (text : List Tok)
    (dai : DAI) (hmem : dai ∈ da) :
    (dai ∈ (delexTextFull abst da text).2 ↔
      ∃ s, dai.slot = some s ∧ s ∈ abst ∧
        dai.value ≠ none ∧ dai.value ≠ some "none".toList ∧
        dai.value ≠ some "dont_care".toList ∧
        ¬ ∃ t ∈ text, DA.has_value da (some t.lem) = some s ∧ s ≠ [] ∧ s ∈ abst) ∧
    (delexTextFull abst da text).1.length = text.length ∧
    (∀ pairs : List (List Tok × DA), (delexTexts abst pairs).length = pairs.length) := by
  refine ⟨?_, delexTextSent_length abst da text, fun pairs => by simp [delexTexts]⟩
  rw [warn_mem_iff]
  simp [hmem]

/-- C7 witness: the characterization applied to the concrete example. -/
theorem delex_warning_characterization_witness :
    (⟨"inform".toList, some "area".toList, some "north".toList⟩ ∈
        (delexTextFull ["area".toList] exC7da exC7text).2 ↔
      ∃ s, (⟨"inform".toList, some "area".toList, some "north".toList⟩ : DAI).slot = some s ∧
        s ∈ ["area".toList] ∧
        (⟨"inform".toList, some "area".toList, some "north".toList⟩ : DAI).value ≠ none ∧
        (⟨"inform".toList, some "area".toList, some "north".toList⟩ : DAI).value ≠ some "none".toList ∧
        (⟨"inform".toList, some "area".toList, some "north".toList⟩ : DAI).value ≠ some "dont_care".toList ∧
        ¬ ∃ t ∈ exC7text, DA.has_value exC7da (some t.lem) = some s ∧ s ≠ [] ∧ s ∈ ["area".toList]) ∧
    (delexTextFull ["area".toList] exC7da exC7text).1.length = exC7text.length ∧
    (∀ pairs : List (List Tok × DA),
      (delexTexts ["area".toList] pairs).length = pairs.length) :=
  delex_warning_characterization ["area".toList] exC7da exC7text
    ⟨"inform".toList, some "area".toList, some "north".toList⟩ (by decide)

/-- C1 counterexample: no coverage warning is emitted for slot `s` (the
warning list is empty), the item satisfies every premise of the claim
(abstractable slot, set value, value neither `none` nor `dont_care`), yet
the delexicalized DA keeps the value `""` instead of the placeholder
`X-s`: the truthiness test of `_delex_das` skips empty values. -/
theorem delex_consistency_fails_on_empty_value :
    (delexTextFull ["s".toList] exC1da exC1text).2 = [] ∧
    delexDA ["s".toList] exC1da = [⟨"inform".toList, some "s".toList, some []⟩] ∧
    some ([] : Str) ≠ some (xSlot "s".toList) := by decide

/-- C1 (amended): for an item with an abstractable slot and a set,
nonempty value that is neither `none` nor `dont_care`, if no coverage
warning is emitted for the item then the delexicalized DA carries the
placeholder value `X-slot` for that item, and the delexicalized token
sequence contains a token whose surface form is `X-slot`. -/
theorem delex_consistency (abst : List Str) (da : DA) (text : List Tok)
    (dai : DAI) (s v : Str) (hmem : dai ∈ da)
    (hs : dai.slot = some s) (hv : dai.value = some v)
    (habst : s ∈ abst) (hvne : v ≠ []) (hvn : v ≠ "none".toList)
    (hvdc : v ≠ "dont_care".toList)
    (hnowarn : dai ∉ (delexTextFull abst da text).2) :
    (DAI.delex abst dai).value = some (xSlot s) ∧
    DAI.delex abst dai ∈ delexDA abst da ∧
    ∃ t ∈ (delexTextFull abst da text).1, t.form = xSlot s := by
  have hcov : ∃ t ∈ text, DA.has_value da (some t.lem) = some s ∧ s ≠ [] ∧ s ∈ abst := by
    by_contra hnc
    exact hnowarn ((warn_mem_iff abst da text dai).mpr
      ⟨hmem, s, hs, habst, by simp [hv],
       by rw [hv]; exact fun h => hvn (Option.some.inj h),
       by rw [hv]; exact fun h => hvdc (Option.some.inj h), hnc⟩)
  refine ⟨?_, List.mem_map_of_mem _ hmem, ?_⟩
  · simp [DAI.delex, hs, hv, hvne, habst]
  · simpa [delexTextFull] using covered_imp_token abst da text s hcov

/-- C1 witness: the consistency statement applied to the concrete example. -/
theorem delex_consistency_witness :
    (DAI.delex ["food".toList]
        ⟨"inform".toList, some "food".toList, some "italian".toList⟩).value =
      some (xSlot "food".toList) ∧
    DAI.delex ["food".toList]
        ⟨"inform".toList, some "food".toList, some "italian".toList⟩ ∈
      delexDA ["food".toList] exC1wda ∧
    ∃ t ∈ (delexTextFull ["food".toList] exC1wda exC1wtext).1,
      t.form = xSlot "food".toList :=
  delex_consistency ["food".toList] exC1wda exC1wtext
    ⟨"inform".toList, some "food".toList, some "italian".toList⟩
    "food".toList "italian".toList (by decide) rfl rfl (by decide) (by decide)
    (by decide) (by decide) (by decide)

/-- The descending window-length list of the matcher, unfolded one step. -/
theorem range_reverse_succ (n : Nat) :
    ((List.range (n + 1)).reverse.map (· + 1)) =
      (n + 1) :: ((List.range n).reverse.map (· + 1)) := by
  rw [List.range_succ, List.reverse_append]
  simp

/-- The downward loop of `_get_surface_form_taggedlemmas` agrees with a
first-hit search over the descending window lengths. -/
theorem tryLen_eq_find (st : SFState) (forms_in : List Str) (n : Nat) :
    st.tryLen forms_in n =
      (match ((List.range n).reverse.map (· + 1)).find?
          (fun k => (st.lookup ((forms_in.take k).map normTok)).isSome) with
       | none => (none, forms_in)
       | some k => specHit st forms_in k) := by
  induction n with
  | zero => simp [SFState.tryLen]
  | succ n ih =>
    rw [range_reverse_succ]
    cases hl : st.lookup ((forms_in.take (n + 1)).map normTok) with
    | some entries =>
      rw [@List.find?_cons_of_pos _
        (fun k => (st.lookup ((forms_in.take k).map normTok)).isSome) (n + 1)
        ((List.range n).reverse.map (· + 1))
        (show (st.lookup ((forms_in.take (n + 1)).map normTok)).isSome = true by
          rw [hl]; rfl)]
      show st.tryLen forms_in (n + 1) = specHit st forms_in (n + 1)
      simp only [SFState.tryLen, specHit]
      rw [hl]
    | none =>
      rw [@List.find?_cons_of_neg _
        (fun k => (st.lookup ((forms_in.take k).map normTok)).isSome) (n + 1)
        ((List.range n).reverse.map (· + 1))
        (show ¬ (st.lookup ((forms_in.take (n + 1)).map normTok)).isSome = true by
          rw [hl]; simp)]
      have hstep : st.tryLen forms_in (n + 1) = st.tryLen forms_in n := by
        simp only [SFState.tryLen]
        rw [hl]
      rw [hstep, ih]

/-- The matcher of the source equals the specification-side longest-match
description. -/
theorem getSurfaceForm_eq_spec (st : SFState) (forms_in : List Str) :
    st.getSurfaceForm forms_in = matchLongestSpec st forms_in := by
  rw [SFState.getSurfaceForm, tryLen_eq_find]
  cases hf : ((List.range (Nat.min st.sf_max_len forms_in.length)).reverse.map (· + 1)).find?
      (fun k => (st.lookup ((forms_in.take k).map normTok)).isSome) with
  | none =>
    simp only [matchLongestSpec]
    rw [hf]
  | some k =>
    simp only [matchLongestSpec, specHit]
    rw [hf]

/-- A first hit over the descending length list is at least as long as any
length that hits. -/
theorem find_desc_ge (p : Nat → Bool) (n j : Nat) (h1 : 1 ≤ j) (h2 : j ≤ n)
    (hp : p j = true) :
    ∃ k, ((List.range n).reverse.map (· + 1)).find? p = some k ∧ j ≤ k ∧ k ≤ n := by
  induction n with
  | zero => omega
  | succ n ih =>
    rw [range_reverse_succ]
    cases hpn : p (n + 1) with
    | true =>
      rw [List.find?_cons_of_pos _ hpn]
      exact ⟨n + 1, rfl, by omega, le_refl _⟩
    | false =>
      rw [List.find?_cons_of_neg _ (by simp [hpn])]
      have hj : j ≤ n := by
        rcases Nat.lt_or_ge j (n + 1) with h | h
        · omega
        · have hjn : j = n + 1 := by omega
          rw [hjn] at hp
          rw [hp] at hpn
          cases hpn
      rcases ih hj with ⟨k, hk, hjk, hkn⟩
      exact ⟨k, hk, hjk, by omega⟩

/-- C4: the matcher tries window lengths from `min(maxLen, queue length)`
down to 1 and behaves exactly as the longest-match specification (first
hit wins, the matched number of tokens is consumed, the joined
original-case window is returned, and a miss consumes nothing); moreover
whenever some window length hits, the result is a hit consuming at least
that many tokens, so a longer matching entry always beats a shorter one. -/
theorem surface_form_longest_match (st : SFState) (forms_in : List Str) :
    st.getSurfaceForm forms_in = matchLongestSpec st forms_in ∧
    (∀ j, 1 ≤ j → j ≤ Nat.min st.sf_max_len forms_in.length →
      (st.lookup ((forms_in.take j).map normTok)).isSome = true →
      (st.getSurfaceForm forms_in).1.isSome = true ∧
      (st.getSurfaceForm forms_in).2.length + j ≤ forms_in.length) := by
  refine ⟨getSurfaceForm_eq_spec st forms_in, ?_⟩
  intro j h1 h2 hj
  rcases find_desc_ge (fun k => (st.lookup ((forms_in.take k).map normTok)).isSome)
      (Nat.min st.sf_max_len forms_in.length) j h1 h2 hj with ⟨k, hk, hjk, hkn⟩
  have hpk := List.find?_some hk
  simp only [Option.isSome_iff_exists] at hpk
  rcases hpk with ⟨entries, he⟩
  have hval : st.getSurfaceForm forms_in = specHit st forms_in k := by
    rw [SFState.getSurfaceForm, tryLen_eq_find, hk]
  have hsh : specHit st forms_in k =
      (some (List.intercalate " ".toList (forms_in.take k),
             entries.map (fun e =>
               (substNums ((forms_in.take k).filter isDigitTok) e.1, e.2))),
       forms_in.drop k) := by
    simp only [specHit]
    rw [he]
  rw [hval, hsh]
  refine ⟨rfl, ?_⟩
  have hmin : Nat.min st.sf_max_len forms_in.length ≤ forms_in.length :=
    Nat.min_le_right _ _
  simp only [List.length_drop]
  omega

/-- C4 witness: with entries `pizza` and `pizza place` both matching the
prefix of the queue `pizza place`, the matcher returns a hit that consumes
at least as much as the one-token match. -/
theorem surface_form_longest_match_witness :
    (stC4.getSurfaceForm ["pizza".toList, "place".toList]).1.isSome = true ∧
    (stC4.getSurfaceForm ["pizza".toList, "place".toList]).2.length + 1 ≤
      (["pizza".toList, "place".toList] : List Str).length :=
  (surface_form_longest_match stC4 ["pizza".toList, "place".toList]).2 1
    (by decide) (by decide) (by decide)

/-- Every serialized item is its bracketless serialization plus the
closing bracket. -/
theorem unicode_eq_serInner (d : DAI) : DAI.unicode d = d.serInner ++ [')'] := by
  have h1 : "()".toList = ['('] ++ [')'] := rfl
  have h2 : "(".toList = ['('] := rfl
  have h3 : ")".toList = [')'] := rfl
  have h4 : "=".toList = ['='] := rfl
  rcases d with ⟨ty, slot, value⟩
  cases slot with
  | none => simp [DAI.unicode, DAI.serInner, h1]
  | some s =>
    cases value with
    | none => simp [DAI.unicode, DAI.serInner, h2, h3]
    | some v =>
      by_cases hq : (' ' ∈ v ∨ ':' ∈ v) <;>
        simp [DAI.unicode, DAI.serInner, h2, h3, h4, hq]

/-- Splitting at the first occurrence of a separator recovers the parts
around it when the left part is separator-free. -/
theorem splitFirstOn_append (sep : Char) (a b : Str) (ha : sep ∉ a) :
    splitFirstOn sep (a ++ sep :: b) = some (a, b) := by
  induction a with
  | nil => simp [splitFirstOn]
  | cons c a ih =>
    have hc : ¬ c = sep := fun hh => ha (hh ▸ List.mem_cons_self _ _)
    have ha2 : sep ∉ a := fun hm => ha (List.mem_cons_of_mem _ hm)
    show splitFirstOn sep (c :: (a ++ sep :: b)) = some (c :: a, b)
    simp only [splitFirstOn, if_neg hc, ih ha2]
    rfl

/-- A bracket-free string has no `)&` separator, so it splits into itself. -/
theorem splitParenAmp_no_paren (c : Str) (h : ')' ∉ c) : splitParenAmp c = [c] := by
  induction c with
  | nil => rfl
  | cons a t ih =>
    cases t with
    | nil => rfl
    | cons b rest =>
      have ha : ¬ (a = ')' ∧ b = '&') := by
        rintro ⟨rfl, -⟩
        exact h (List.mem_cons_self _ _)
      have ht : ')' ∉ b :: rest := fun hm => h (List.mem_cons_of_mem _ hm)
      simp only [splitParenAmp, if_neg ha, ih ht, consHead]

/-- Splitting peels off a bracket-free chunk followed by the separator. -/
theorem splitParenAmp_append (c s : Str) (h : ')' ∉ c) :
    splitParenAmp (c ++ ')' :: '&' :: s) = c :: splitParenAmp s := by
  induction c with
  | nil => simp [splitParenAmp]
  | cons a c ih =>
    have ha : a ≠ ')' := fun hh => h (hh ▸ List.mem_cons_self _ _)
    have hc : ')' ∉ c := fun hm => h (List.mem_cons_of_mem _ hm)
    have ih2 := ih hc
    cases c with
    | nil => simp [splitParenAmp, consHead, ha]
    | cons b c2 =>
      simp only [List.cons_append] at ih2 ⊢
      simp [splitParenAmp, consHead, ha, ih2]

/-- Unfolding of `intercalate` on a two-or-more element list. -/
theorem intercalate_cons₂ (sep a b : Str) (t : List Str) :
    List.intercalate sep (a :: b :: t) = a ++ sep ++ List.intercalate sep (b :: t) := by
  simp [List.intercalate, List.intersperse_cons_cons]

/-- Joining bracket-terminated chunks with `&` is joining the bare chunks
with `)&` and closing the last bracket. -/
theorem intercalate_amp :
    ∀ (l : List Str), l ≠ [] →
      List.intercalate ['&'] (l.map (fun x => x ++ [')'])) =
        List.intercalate [')', '&'] l ++ [')']
  | [], hne => absurd rfl hne
  | [a], _ => by simp [List.intercalate]
  | a :: b :: t, _ => by
    have ih := intercalate_amp (b :: t) (by simp)
    simp only [List.map_cons] at ih ⊢
    rw [intercalate_cons₂, intercalate_cons₂, ih]
    simp [List.append_assoc]

/-- Splitting on `)&` recovers the chunks joined with `)&` when every
chunk is free of closing brackets. -/
theorem splitParenAmp_intercalate :
    ∀ (l : List Str), l ≠ [] → (∀ c ∈ l, ')' ∉ c) →
      splitParenAmp (List.intercalate [')', '&'] l) = l
  | [], hne, _ => absurd rfl hne
  | [a], _, h => by
    simp only [List.intercalate, List.intersperse, List.flatten, List.append_nil]
    exact splitParenAmp_no_paren a (h a (List.mem_cons_self _ _))
  | a :: b :: t, _, h => by
    rw [intercalate_cons₂]
    have ha : ')' ∉ a := h a (List.mem_cons_self _ _)
    have ih := splitParenAmp_intercalate (b :: t) (by simp)
      (fun c hc => h c (List.mem_cons_of_mem _ hc))
    rw [show a ++ [')', '&'] ++ List.intercalate [')', '&'] (b :: t) =
          a ++ ')' :: '&' :: List.intercalate [')', '&'] (b :: t) from by simp,
        splitParenAmp_append _ _ ha, ih]

/-- A round-trip-safe item yields no closing bracket in its bracketless
serialization. -/
theorem serInner_no_paren (d : DAI) (h : d.wfb = true) : ')' ∉ d.serInner := by
  rcases d with ⟨ty, slot, value⟩
  cases slot with
  | none =>
    simp only [DAI.wfb, Bool.and_eq_true, decide_eq_true_eq] at h
    obtain ⟨⟨⟨hty1, _⟩, _⟩, _⟩ := h
    simp [DAI.serInner, hty1]
  | some s =>
    cases value with
    | none =>
      simp only [DAI.wfb, Bool.and_eq_true, decide_eq_true_eq] at h
      obtain ⟨⟨⟨hty1, _⟩, ⟨_, hs1⟩, _⟩, _⟩ := h
      simp [DAI.serInner, hty1, hs1]
    | some v =>
      simp only [DAI.wfb, Bool.and_eq_true, decide_eq_true_eq] at h
      obtain ⟨⟨⟨hty1, _⟩, ⟨_, hs1⟩, _⟩, ⟨⟨hv1, _⟩, hv3⟩, hv4⟩ := h
      have hq : ¬ (' ' ∈ v ∨ ':' ∈ v) := by
        rintro (hm | hm)
        exacts [hv3 hm, hv4 hm]
      simp [DAI.serInner, if_neg hq, hty1, hs1, hv1]

/-- Parsing inverts the bracketless serialization of a round-trip-safe
item. -/
theorem parseDAI_serInner (d : DAI) (h : d.wfb = true) : parseDAI d.serInner = some d := by
  rcases d with ⟨ty, slot, value⟩
  cases slot with
  | none =>
    simp only [DAI.wfb, Bool.and_eq_true, decide_eq_true_eq, beq_iff_eq] at h
    obtain ⟨⟨⟨_, hty2⟩, hvn⟩, _⟩ := h
    subst hvn
    have hsplit : splitFirstOn '(' (ty ++ '(' :: ([] : Str)) = some (ty, []) :=
      splitFirstOn_append '(' ty [] hty2
    simp only [DAI.serInner]
    simpa using by simp [parseDAI, hsplit]
  | some s =>
    cases value with
    | none =>
      simp only [DAI.wfb, Bool.and_eq_true, decide_eq_true_eq] at h
      obtain ⟨⟨⟨_, hty2⟩, ⟨hsne, _⟩, hs2⟩, _⟩ := h
      have hsplit : splitFirstOn '(' (ty ++ '(' :: s) = some (ty, s) :=
        splitFirstOn_append '(' ty s hty2
      simp [DAI.serInner, parseDAI, hsplit, hsne, hs2]
    | some v =>
      simp only [DAI.wfb, Bool.and_eq_true, decide_eq_true_eq] at h
      obtain ⟨⟨⟨_, hty2⟩, ⟨hsne, _⟩, hs2⟩, ⟨⟨_, hv2⟩, hv3⟩, hv4⟩ := h
      have hq : ¬ (' ' ∈ v ∨ ':' ∈ v) := by
        rintro (hm | hm)
        exacts [hv3 hm, hv4 hm]
      have hsplit1 : splitFirstOn '(' (ty ++ '(' :: (s ++ '=' :: v)) =
          some (ty, s ++ '=' :: v) :=
        splitFirstOn_append '(' ty (s ++ '=' :: v) hty2
      have hsplit2 : splitFirstOn '=' (s ++ '=' :: v) = some (s, v) :=
        splitFirstOn_append '=' s v hs2
      have hne2 : s ++ '=' :: v ≠ [] := by simp
      have hmem2 : '=' ∈ s ++ '=' :: v := by simp
      have hhd : ¬ v.head? = some dquote := by
        cases v with
        | nil => simp
        | cons c vt =>
          simp only [List.head?_cons, Option.some.injEq]
          intro hh
          exact hv2 (hh ▸ List.mem_cons_self _ _)
      simp [DAI.serInner, parseDAI, if_neg hq, hsplit1, hsplit2, hne2, hmem2, hhd]

/-- Chunkwise parsing recovers a list of round-trip-safe items. -/
theorem mapM_parse_serInner :
    ∀ (da : DA), (∀ d ∈ da, d.wfb = true) →
      (da.map DAI.serInner).mapM parseDAI = some da
  | [], _ => rfl
  | d :: rest, h => by
    have hd := parseDAI_serInner d (h d (List.mem_cons_self _ _))
    have ih := mapM_parse_serInner rest (fun x hx => h x (List.mem_cons_of_mem _ hx))
    rw [List.map_cons, List.mapM_cons, hd, ih]
    rfl

/-- C2 (amended): parsing inverts serialization for every nonempty DA all
of whose items are round-trip-safe — in particular every value is free of
spaces and colons, so serialization adds no quotes.  (As stated, the claim
fails: values containing a space or a colon are wrapped in single quotes,
which `DA.parse` does not strip.) -/
theorem DA_parse_roundtrip (da : DA) (hne : da ≠ [])
    (hwf : ∀ d ∈ da, d.wfb = true) :
    DA.parse (DA.unicode da) = some da := by
  have hmapne : da.map DAI.serInner ≠ [] := by
    cases da with
    | nil => exact absurd rfl hne
    | cons d rest => simp
  have hchunks : ∀ c ∈ da.map DAI.serInner, ')' ∉ c := by
    intro c hc
    rcases List.mem_map.mp hc with ⟨d, hd, rfl⟩
    exact serInner_no_paren d (hwf d hd)
  have hmap : da.map DAI.unicode = (da.map DAI.serInner).map (fun x => x ++ [')']) := by
    rw [List.map_map]
    exact List.map_congr_left (fun d _ => unicode_eq_serInner d)
  have hamp : "&".toList = ['&'] := rfl
  rw [DA.unicode, hamp, hmap, intercalate_amp _ hmapne, DA.parse, List.dropLast_concat,
      splitParenAmp_intercalate _ hmapne hchunks]
  exact mapM_parse_serInner da hwf

/-- C2 witness: the round trip applied to a three-item DA. -/
theorem DA_parse_roundtrip_witness : DA.parse (DA.unicode exC2w) = some exC2w :=
  DA_parse_roundtrip exC2w (by decide) (by decide)

/-- C2 counterexample: the value `a b` contains no quote character, yet
parsing the serialization does not return the original DA — serialization
wraps the value in single quotes (it contains a space) while `DA.parse`
strips only double quotes, so the parsed value keeps the quotes. -/
theorem DA_parse_roundtrip_fails :
    squote ∉ "a b".toList ∧ dquote ∉ "a b".toList ∧
    DA.parse (DA.unicode exC2cex) ≠ some exC2cex ∧
    DA.parse (DA.unicode exC2cex) =
      some [⟨"inform".toList, some "name".toList,
             some (squote :: "a b".toList ++ [squote])⟩] := by decide
